import Mathlib

/- Shallow embedding of the logpi indexing engine (src/logpi.c, src/parallel.c,
   src/hash.c netaddr section) and proofs about its specified behaviour.
   Machine integers are modelled as Nat; fallible reallocation is an explicit
   Bool argument; the external line tokenizer (parser.c, absent from the
   sources) is modelled from the spec where a concrete tokenizer is needed. -/

namespace Logpi

/-- One stored occurrence, `location_entry_t` of logpi.h: 0-based line number
    and 1-based field position (`offset`). -/
structure Location where
  line : Nat
  offset : Nat
  deriving DecidableEq

/-- Model of `location_array_t` (logpi.h): growable vector of locations.  The
    entries list stands for `entries[0..count)` (so `count = entries.length`);
    `capacity` is the allocated size.  The per-array mutex is irrelevant to the
    sequential semantics modelled here. -/
structure LocationArray where
  entries : List Location
  capacity : Nat
  deriving DecidableEq

/-- Model of `create_location_array` (logpi.c): floor the initial capacity at 64,
    start with no entries.  Allocation of the array object itself is assumed to
    succeed here; callers that handle its failure are modelled separately. -/
def create_location_array (initial : Nat) : LocationArray :=
  { entries := [], capacity := if initial < 64 then 64 else initial }

/-- Model of `add_location_atomic` (logpi.c): if `count >= capacity` report failure
    and leave the array unchanged, otherwise store the location at index
    `count` and bump `count`. -/
def add_location_atomic (a : LocationArray) (loc : Location) : Bool × LocationArray :=
  if a.capacity ≤ a.entries.length then (false, a)
  else (true, { entries := a.entries ++ [loc], capacity := a.capacity })

/-- Bound `SIZE_MAX / sizeof(location_entry_t)` checked by `grow_location_array`
    on the 64-bit target: sizeof is 16 (8-byte line, 2-byte offset, padding). -/
def growCapacityLimit : Nat := (2 ^ 64 - 1) / 16

/-- Model of `grow_location_array` (logpi.c): reject capacities above
    `SIZE_MAX/sizeof(location_entry_t)` or not above the current capacity
    (the source rejects `new < capacity` and then `new <= capacity`; the
    under-lock re-check is unreachable in the sequential semantics); otherwise
    reallocate, which succeeds iff `allocOk`, leaving the array unchanged on
    failure. -/
def grow_location_array (a : LocationArray) (newCapacity : Nat) (allocOk : Bool) :
    Bool × LocationArray :=
  if growCapacityLimit < newCapacity ∨ newCapacity ≤ a.capacity then (false, a)
  else if allocOk then (true, { entries := a.entries, capacity := newCapacity })
  else (false, a)

/-- The growth step computed at every grow-and-retry site (`processFile`,
    `buffer_address_local`, `hash_thread`): 25 percent growth when the current
    capacity is at least 1048576 entries, doubling below that. -/
def next_capacity (c : Nat) : Nat :=
  if 1048576 ≤ c then c + c / 4 else c * 2

/-- Outcome of the serial-path append (`processFile`, logpi.c lines 820-844):
    either the location is stored or the program calls `abort()`. -/
inductive SerialAppend
  | ok (a : LocationArray)
  | abort
  deriving DecidableEq

/-- Model of the serial update path of `processFile` (logpi.c lines 820-844):
    try the append; when the array is full compute `next_capacity` and grow;
    if the grow fails, or the retry after a successful grow fails, `abort()`. -/
def serial_append (a : LocationArray) (loc : Location) (allocOk : Bool) : SerialAppend :=
  match add_location_atomic a loc with
  | (true, a1) => .ok a1
  | (false, _) =>
    match grow_location_array a (next_capacity a.capacity) allocOk with
    | (false, _) => .abort
    | (true, a1) =>
      match add_location_atomic a1 loc with
      | (true, a2) => .ok a2
      | (false, _) => .abort

/-- Outcome of the parallel worker append (`buffer_address_local`, parallel.c):
    either the location is stored, or it is dropped (the function returns
    FALSE after printing an error) and the worker keeps running. -/
inductive WorkerAppend
  | ok (a : LocationArray)
  | dropped (a : LocationArray)
  deriving DecidableEq

/-- Model of the existing-address branch of `buffer_address_local`
    (parallel.c lines 1029-1050): try the append; when the array is full
    compute `next_capacity` and grow; on grow failure (or failure of the retry
    after a successful grow) report FALSE, dropping this single location, and
    continue. -/
def worker_append (a : LocationArray) (loc : Location) (allocOk : Bool) : WorkerAppend :=
  match add_location_atomic a loc with
  | (true, a1) => .ok a1
  | (false, _) =>
    match grow_location_array a (next_capacity a.capacity) allocOk with
    | (false, a1) => .dropped a1
    | (true, a1) =>
      match add_location_atomic a1 loc with
      | (true, a2) => .ok a2
      | (false, a2) => .dropped a2

/-- Per-thread slot of `metaData_t` (`thread_location_data_t` of logpi.h):
    an optional location array plus this thread's occurrence count. -/
structure ThreadData where
  locations : Option LocationArray
  count : Nat
  deriving DecidableEq

/-- Model of `get_thread_location_array` (logpi.c): lazily create a
    1024-capacity array for the thread.  Creation is assumed to succeed (the
    callers abort or skip when it returns NULL). -/
def get_thread_location_array (td : ThreadData) : LocationArray :=
  td.locations.getD (create_location_array 1024)

/-- Model of the race-resolution update in `hash_thread` (parallel.c lines
    1494-1525): a worker requested a new address that already exists, so the
    hash thread appends the carried location to the requesting worker's array,
    growing it on demand.  Note that the source increments
    `thread_data[worker_id].count` and `total_count` even when both the append
    and the grow-and-retry failed, which is what this model mirrors. -/
def hash_thread_race_update (td : ThreadData) (loc : Location) (allocOk : Bool) : ThreadData :=
  let arr := get_thread_location_array td
  let arr2 :=
    match add_location_atomic arr loc with
    | (true, a1) => a1
    | (false, _) =>
      match grow_location_array arr (next_capacity arr.capacity) allocOk with
      | (true, g) => (add_location_atomic g loc).2
      | (false, g) => g
  { locations := some arr2, count := td.count + 1 }

/-- The COUNT field that `printAddress` (logpi.c) writes for one record:
    the sum of the per-thread counts over the threads whose location array
    pointer is non-NULL. -/
def record_total_count (tds : List ThreadData) : Nat :=
  (tds.map (fun td => if td.locations = none then 0 else td.count)).sum

/-- The stored entries of one thread slot (empty when the array was never
    created), as consumed by `stream_sorted_locations`. -/
def thread_entries (td : ThreadData) : List Location :=
  match td.locations with
  | some a => a.entries
  | none => []

/-- A concrete full location array: capacity 64 (the creation floor) holding
    64 entries. -/
def fullArray64 : LocationArray :=
  { entries := List.replicate 64 { line := 0, offset := 1 }, capacity := 64 }

/-- The concrete thread slot used to exercise the hash-thread race update:
    64 stored locations, per-thread count 64. -/
def raceSlot : ThreadData := { locations := some fullArray64, count := 64 }

/-- The thread slot after the hash-thread race update runs on a full array
    while the reallocation fails. -/
def raceSlotAfter : ThreadData :=
  hash_thread_race_update raceSlot { line := 99, offset := 1 } false

/- ===== Mode selection (parallel.c should_use_parallel, init_parallel_context;
   logpi.c processFile) ===== -/

/-- The inputs that determine whether `processFile` takes the parallel path:
    file size and detected core count (both from the environment), and the
    relevant configuration flags and file kind. -/
structure ModeInput where
  file_size : Nat
  cores : Nat
  auto_lpi_naming : Bool
  force_serial : Bool
  isGz : Bool
  isStdin : Bool
  deriving DecidableEq

/-- MIN_FILE_SIZE_FOR_PARALLEL of parallel.h: 100 MiB. -/
def MIN_FILE_SIZE_FOR_PARALLEL : Nat := 104857600

/-- Model of `should_use_parallel` (parallel.c lines 95-113): refuse files below
    100 MiB, fewer than 2 cores, or stdout mode (`!auto_lpi_naming`). -/
def should_use_parallel (m : ModeInput) : Bool :=
  if m.file_size < MIN_FILE_SIZE_FOR_PARALLEL then false
  else if m.cores < 2 then false
  else if !m.auto_lpi_naming then false
  else true

/-- Model of the gating in `processFile` (logpi.c lines 589-615): the parallel
    path is considered only for non-gzip, non-stdin inputs, and taken when
    serial mode is not forced and `should_use_parallel` is true. -/
def use_parallel_decision (m : ModeInput) : Bool :=
  if m.isGz then false
  else if m.isStdin then false
  else if m.force_serial then false
  else should_use_parallel m

/-- The condition claimed by the spec for taking the parallel path: regular
    (non-gzip, non-stdin) input, size strictly above 100 MiB, more than one
    CPU, no forced serial mode. -/
def claimed_use_parallel (m : ModeInput) : Bool :=
  !m.isGz && !m.isStdin && decide (MIN_FILE_SIZE_FOR_PARALLEL < m.file_size)
    && decide (1 < m.cores) && !m.force_serial

/-- MIN_CHUNK_SIZE of parallel.h: 1 MiB. -/
def MIN_CHUNK_SIZE : Nat := 1048576

/-- DEFAULT_CHUNK_SIZE of parallel.h: 128 MiB. -/
def DEFAULT_CHUNK_SIZE : Nat := 134217728

/-- Model of the worker-count computation of `init_parallel_context`
    (parallel.c lines 194-209): half the cores clamped to [2,8], then retuned
    when the per-thread chunk would fall below MIN_CHUNK_SIZE. -/
def parallel_worker_count (cores file_size : Nat) : Nat :=
  let threads0 := cores / 2
  let threads1 := if threads0 < 2 then 2 else threads0
  let threads2 := if 8 < threads1 then 8 else threads1
  let chunk := file_size / threads2
  if chunk < MIN_CHUNK_SIZE then
    let threads3 := file_size / MIN_CHUNK_SIZE
    if threads3 < 2 then 2 else threads3
  else threads2

/-- The boundary input: file size exactly 100 MiB, 4 cores, write mode,
    serial not forced, plain regular file. -/
def modeBoundary : ModeInput :=
  { file_size := 104857600, cores := 4, auto_lpi_naming := true,
    force_serial := false, isGz := false, isStdin := false }

/-- The stdout-mode input: a 200 MiB regular file, 4 cores, no `-w`,
    serial not forced. -/
def modeStdout : ModeInput :=
  { file_size := 209715200, cores := 4, auto_lpi_naming := false,
    force_serial := false, isGz := false, isStdin := false }

/- ===== Output comparators and the k-way merge
   (logpi.c compare_locations, compare_addresses_for_output,
    stream_sorted_locations) ===== -/

/-- Model of `compare_locations` (logpi.c lines 351-359): order by line number
    only; equal line numbers compare equal (the field is ignored). -/
def compare_locations (a b : Location) : Int :=
  if a.line < b.line then -1
  else if b.line < a.line then 1
  else 0

/-- What C guarantees about `qsort output` for a given comparator: the output
    is a permutation of the input in which no adjacent pair compares
    positively.  C's qsort is not stable, so nothing more is guaranteed. -/
def IsQsortResult {α : Type} (cmp : α → α → Int) (input output : List α) : Prop :=
  output.Perm input ∧ output.Chain' (fun x y => cmp x y ≤ 0)

/-- Model of `strcmp` on NUL-terminated byte strings, returning only the sign:
    byte-wise comparison as unsigned chars, a strict prefix compares low. -/
def strcmp : List Nat → List Nat → Int
  | [], [] => 0
  | [], _ :: _ => -1
  | _ :: _, [] => 1
  | a :: as, b :: bs => if a < b then -1 else if b < a then 1 else strcmp as bs

/-- Model of `address_for_sorting_t` (logpi.h): the address key as its byte
    string plus the record's total count. -/
structure AddressForSorting where
  address : List Nat
  total_count : Nat
  deriving DecidableEq

/-- Model of `compare_addresses_for_output` (logpi.c lines 366-378): total
    count descending, ties broken by `strcmp` on the address bytes. -/
def compare_addresses_for_output (a b : AddressForSorting) : Int :=
  if b.total_count < a.total_count then -1
  else if a.total_count < b.total_count then 1
  else strcmp a.address b.address

/-- The scan of `stream_sorted_locations` (logpi.c lines 446-455) that finds
    the array with the strictly smallest head line, earliest index winning
    ties; `k` is the index of the first array in `arrays` and `acc` the best
    candidate so far. -/
def findMinFrom : Nat → Option (Nat × Location) → List (List Location) →
    Option (Nat × Location)
  | _, acc, [] => acc
  | k, acc, arr :: rest =>
    match arr with
    | [] => findMinFrom (k + 1) acc rest
    | loc :: _ =>
      match acc with
      | none => findMinFrom (k + 1) (some (k, loc)) rest
      | some (_, best) =>
        if loc.line < best.line then findMinFrom (k + 1) (some (k, loc)) rest
        else findMinFrom (k + 1) acc rest

/-- One full scan over all cursors, as in the source's per-iteration loop. -/
def findMinThread (arrays : List (List Location)) : Option (Nat × Location) :=
  findMinFrom 0 none arrays

/-- Advance the cursor of array `i` (the source bumps `thread_indices[i]` and
    NULLs the array when exhausted; consuming the head is equivalent). -/
def advanceAt : List (List Location) → Nat → List (List Location)
  | [], _ => []
  | arr :: rest, 0 => arr.tail :: rest
  | arr :: rest, n + 1 => arr :: advanceAt rest n

/-- The emission loop of `stream_sorted_locations` (logpi.c lines 440-472):
    repeatedly emit the minimum-line head and advance that cursor.  `fuel`
    bounds the iteration count; the wrapper passes the total entry count, which
    is exactly the number of iterations the source performs. -/
def streamMerge : Nat → List (List Location) → List Location
  | 0, _ => []
  | fuel + 1, arrays =>
    match findMinThread arrays with
    | none => []
    | some (i, loc) => loc :: streamMerge fuel (advanceAt arrays i)

/-- Model of `stream_sorted_locations` (logpi.c lines 419-473) applied to
    per-thread arrays that have already been ordered by `qsort`: the k-way
    merge of the given entry lists. -/
def stream_sorted_locations (arrays : List (List Location)) : List Location :=
  streamMerge (arrays.map List.length).sum arrays

/- ===== Network address extraction (hash.c netaddr section:
   fast_extract_ipv4, fast_extract_ipv6) ===== -/

/-- IS_DIGIT of netaddr_parser.h. -/
def IS_DIGIT (c : Char) : Bool := decide ('0' ≤ c ∧ c ≤ '9')

/-- The value of a decimal digit character. -/
def digitVal (c : Char) : Nat := c.toNat - '0'.toNat

/-- IS_HEX of netaddr_parser.h via `hex_table`: exactly 0-9, a-f, A-F. -/
def IS_HEX (c : Char) : Bool :=
  decide (('0' ≤ c ∧ c ≤ '9') ∨ ('a' ≤ c ∧ c ≤ 'f') ∨ ('A' ≤ c ∧ c ≤ 'F'))

/-- HEX_VALUE of netaddr_parser.h via `hex_table` (only meaningful on hex
    characters). -/
def HEX_VALUE (c : Char) : Nat :=
  if '0' ≤ c ∧ c ≤ '9' then c.toNat - '0'.toNat
  else if 'a' ≤ c ∧ c ≤ 'f' then c.toNat - 'a'.toNat + 10
  else if 'A' ≤ c ∧ c ≤ 'F' then c.toNat - 'A'.toNat + 10
  else 0

/-- Decimal rendering of a Nat, as `snprintf %u` produces. -/
def natChars (n : Nat) : List Char := Nat.toDigits 10 n

/-- The `%u.%u.%u.%u` rendering used by `fast_extract_ipv4` for `addr->str`. -/
def ipv4Render : List Nat → List Char
  | [] => []
  | [o] => natChars o
  | o :: rest => natChars o ++ '.' :: ipv4Render rest

/-- Result of `fast_extract_ipv4`: consumed length, the four octet values, and
    the re-rendered string stored in `addr->str`.  The binary `addr.ipv4`
    payload is determined by `octets` and not modelled separately. -/
structure NetAddrV4 where
  length : Nat
  octets : List Nat
  str : List Char
  deriving DecidableEq

/-- The post-loop acceptance check of `fast_extract_ipv4`: exactly three
    completed octets, a non-empty final octet of value at most 255. -/
def ipv4Finish (octets : List Nat) (digits value consumed : Nat) : Option NetAddrV4 :=
  if octets.length = 3 ∧ 0 < digits ∧ value ≤ 255 then
    some { length := consumed, octets := octets ++ [value],
           str := ipv4Render (octets ++ [value]) }
  else none

/-- The scanning loop of `fast_extract_ipv4` (hash.c lines 1213-1236): at most
    15 characters; digits accumulate the octet value (at most 3 digits, at most
    255), '.' closes an octet (at most 3 separators), anything else ends the
    candidate. -/
def ipv4Go : List Char → Nat → List Nat → Nat → Nat → Option NetAddrV4
  | [], consumed, octets, digits, value => ipv4Finish octets digits value consumed
  | c :: rest, consumed, octets, digits, value =>
    if 15 ≤ consumed then ipv4Finish octets digits value consumed
    else if IS_DIGIT c then
      let v := value * 10 + digitVal c
      if 3 < digits + 1 ∨ 255 < v then none
      else ipv4Go rest (consumed + 1) octets (digits + 1) v
    else if c = '.' then
      if digits = 0 ∨ 3 ≤ octets.length then none
      else ipv4Go rest (consumed + 1) (octets ++ [value]) 0 0
    else ipv4Finish octets digits value consumed

/-- Model of `fast_extract_ipv4` (hash.c lines 1202-1257): `none` stands for
    the source's `return 0`. -/
def fast_extract_ipv4 (s : List Char) : Option NetAddrV4 :=
  if s.length < 7 then none
  else ipv4Go s 0 [] 0 0

/-- Result of `fast_extract_ipv6`: consumed length and the string stored into
    `addr->str`.  The binary 16-byte payload is a function of the parsed groups
    and is not needed by any claim, so it is not carried here. -/
structure NetAddrV6 where
  length : Nat
  str : List Char
  deriving DecidableEq

/-- The validation at `ipv6_complete` (hash.c lines 1343-1356) followed by the
    string store (lines 1385-1387): with a `::` at most 8 groups are allowed,
    without one exactly 8 are required; on success `addr->str` receives the
    consumed input span verbatim (`memcpy(addr->str, start, ptr - start)`). -/
def ipv6Validate (s : List Char) (groups : List Nat) (dc : Option Nat)
    (consumed : Nat) : Option NetAddrV6 :=
  match dc with
  | some _ =>
    if 8 < groups.length then none
    else some { length := consumed, str := s.take consumed }
  | none =>
    if groups.length = 8 then some { length := consumed, str := s.take consumed }
    else none

/-- The post-loop group flush of `fast_extract_ipv6` (hash.c lines 1335-1341):
    a pending group is appended unless 8 groups already exist, then validation
    runs. -/
def ipv6Finish (s : List Char) (groups : List Nat) (dc : Option Nat)
    (digits value consumed : Nat) : Option NetAddrV6 :=
  if 0 < digits then
    if 8 ≤ groups.length then none
    else ipv6Validate s (groups ++ [value]) dc consumed
  else ipv6Validate s groups dc consumed

/-- The scanning loop of `fast_extract_ipv6` (hash.c lines 1278-1333) over the
    remaining characters: `s` is the whole candidate (needed to re-parse an
    embedded IPv4), `consumed` the characters already taken (bounded by 39),
    `digits`/`value` the pending group, `groups` the completed groups, `dc`
    the group index of the single permitted `::`.  The fuel argument makes the
    recursion structural; every step consumes at least one character, so the
    wrapper's fuel of `s.length + 1` makes the fuel-exhaustion case
    unreachable. -/
def ipv6Go (s : List Char) : Nat → List Char → Nat → Nat → Nat → List Nat → Option Nat →
    Option NetAddrV6
  | 0, _, _, _, _, _, _ => none
  | _ + 1, [], consumed, digits, value, groups, dc =>
    ipv6Finish s groups dc digits value consumed
  | fuel + 1, c :: rest, consumed, digits, value, groups, dc =>
    if 39 ≤ consumed then ipv6Finish s groups dc digits value consumed
    else if IS_HEX c then
      if 4 < digits + 1 then none
      else ipv6Go s fuel rest (consumed + 1) (digits + 1) (value * 16 + HEX_VALUE c) groups dc
    else if c = ':' then
      if rest.head? = some ':' then
        if dc.isSome then none
        else
          let groups2 := if 0 < digits then groups ++ [value] else groups
          ipv6Go s fuel rest.tail (consumed + 2) 0 0 groups2 (some groups2.length)
      else
        if digits = 0 ∧ groups.length = 0 then none
        else if 8 ≤ groups.length then none
        else ipv6Go s fuel rest (consumed + 1) 0 0 (groups ++ [value]) dc
    else if c = '.' ∧ 6 ≤ groups.length then
      match fast_extract_ipv4 (s.drop (consumed - digits)) with
      | some r4 =>
        match r4.octets with
        | [o0, o1, o2, o3] =>
          ipv6Validate s (groups ++ [o0 * 256 + o1, o2 * 256 + o3]) dc
            ((consumed - digits) + r4.length)
        | _ => none
      | none => none
    else ipv6Finish s groups dc digits value consumed

/-- Model of `fast_extract_ipv6` (hash.c lines 1265-1390): `none` stands for
    the source's `return 0`. -/
def fast_extract_ipv6 (s : List Char) : Option NetAddrV6 :=
  if s.length < 3 then none
  else ipv6Go s (s.length + 1) s 0 0 0 [] none

/- ===== Indexing pipelines: serial loop of processFile (logpi.c), and
   io_thread + process_chunk of parallel.c ===== -/

/-- A record produced by the indexing loops: canonical address bytes, 0-based
    line number, 1-based field position. -/
structure IndexRec where
  addr : List Char
  line : Nat
  field : Nat
  deriving DecidableEq

/-- A tokenizer: maps one line (without its terminating newline) to its fields
    in order; an address-tagged field carries its canonical text. -/
def Tok : Type := List Char → List (Option (List Char))

/-- The shared field loop of `processFile` and `process_chunk`: for field
    `i = 1 .. ret-1`, an address-tagged field contributes one record at the
    current line number. -/
def line_records (tok : Tok) (lineNo : Nat) (content : List Char) : List IndexRec :=
  (tok content).enum.filterMap fun p =>
    match p.2 with
    | some a => some { addr := a, line := lineNo, field := p.1 + 1 }
    | none => none

/-- The `strchr(line_start, con)` loop shape of `process_chunk`: the chunk
    buffer is cut into newline-terminated lines (content excludes the
    newline); a trailing fragment with no newline is never visited. -/
def chunkLinesGo : List Char → List Char → List (List Char)
  | [], _ => []
  | c :: rest, acc =>
    if c = '\n' then acc.reverse :: chunkLinesGo rest []
    else chunkLinesGo rest (c :: acc)

/-- The newline-terminated lines of a chunk buffer. -/
def chunk_lines (buf : List Char) : List (List Char) :=
  chunkLinesGo buf []

/-- The per-line loop of `process_chunk` (parallel.c lines 1389-1419) over the
    terminated lines of a chunk: a line is parsed only when
    `0 < line_len < 65535` (the copy buffer holds 65536 bytes), and only then
    is `worker->lines_processed` incremented; `base` is
    `chunk->start_line_number + chunk->carry_forward_lines` and `counter` the
    running `lines_processed`. -/
def processChunkGo (tok : Tok) (base : Nat) : List (List Char) → Nat → List IndexRec
  | [], _ => []
  | l :: rest, counter =>
    if 0 < l.length ∧ l.length < 65535 then
      line_records tok (base + counter) l ++ processChunkGo tok base rest (counter + 1)
    else processChunkGo tok base rest counter

/-- Model of `process_chunk` (parallel.c lines 1374-1435): records extracted
    from one chunk, with absolute line numbers
    `start_line_number + carry_forward_lines + lines_processed`. -/
def process_chunk (tok : Tok) (startLine carryLines : Nat) (buf : List Char) :
    List IndexRec :=
  processChunkGo tok (startLine + carryLines) (chunk_lines buf) 0

/-- The final value of `worker->lines_processed` after the loop of
    `process_chunk` runs over the given lines starting from `c`. -/
def linesProcessedGo : List (List Char) → Nat → Nat
  | [], c => c
  | l :: rest, c =>
    if 0 < l.length ∧ l.length < 65535 then linesProcessedGo rest (c + 1)
    else linesProcessedGo rest c

/-- A chunk as emitted by `io_thread`: starting absolute line number, count of
    carry-forward line boundaries, and the buffer contents. -/
structure IoChunk where
  start_line : Nat
  carry_lines : Nat
  buffer : List Char
  deriving DecidableEq

/-- Count of newline bytes in a buffer. -/
def countNl (l : List Char) : Nat := l.countP (fun c => c == '\n')

/-- Index of the last newline in a buffer (`strrchr(buffer, ...)`). -/
def lastNlIdx (l : List Char) : Option Nat :=
  l.enum.foldl (fun acc p => if p.2 == '\n' then some p.1 else acc) none

/-- The dispatcher's carry-forward buffer capacity (parallel.c: 64 KiB). -/
def CARRY_FORWARD_CAPACITY : Nat := 65536

/-- The producer loop of `io_thread` (parallel.c lines 1087-1212): while input
    bytes remain, prepend the carry-forward, read up to the target chunk size,
    cut at the last newline (the remainder becomes the next carry-forward if it
    fits, and is otherwise discarded; with no newline the whole buffer is
    emitted), and advance the line counter by the newly seen newlines only.
    When the read loop ends, any remaining carry-forward is never emitted.  The
    fuel argument only bounds the iteration count; the wrapper passes enough
    for the loop to run to completion. -/
def ioGo (target : Nat) : Nat → List Char → List Char → Nat → List IoChunk
  | 0, _, _, _ => []
  | fuel + 1, rest, carry, lineNo =>
    if rest.length = 0 then []
    else
      let bufferSize := min target rest.length
      let cfl := countNl carry
      let btr := if 0 < carry.length ∧ target - carry.length < bufferSize then
                   target - carry.length
                 else bufferSize
      let buf := carry ++ rest.take btr
      let rest2 := rest.drop btr
      match lastNlIdx buf with
      | some idx =>
        let chunkBuf := buf.take (idx + 1)
        let rsz := buf.length - (idx + 1)
        let carry2 := if 0 < rsz ∧ rsz ≤ CARRY_FORWARD_CAPACITY then
                        buf.drop (idx + 1)
                      else []
        { start_line := lineNo, carry_lines := cfl, buffer := chunkBuf } ::
          ioGo target fuel rest2 carry2 (lineNo + (countNl chunkBuf - cfl))
      | none =>
        { start_line := lineNo, carry_lines := cfl, buffer := buf } ::
          ioGo target fuel rest2 [] (lineNo + (countNl buf - cfl))

/-- Model of the chunk stream `io_thread` produces for a file. -/
def io_thread_chunks (target : Nat) (file : List Char) : List IoChunk :=
  ioGo target (file.length + 1) file [] 0

/-- The records the parallel pipeline collects for a file: every chunk
    processed by `process_chunk`.  Which worker handles which chunk does not
    affect the set of records, only the per-thread partition, so the chunks
    are processed here in production order. -/
def parallel_index (tok : Tok) (target : Nat) (file : List Char) : List IndexRec :=
  ((io_thread_chunks target file).map
    (fun ch => process_chunk tok ch.start_line ch.carry_lines ch.buffer)).flatten

/-- One `fgets(inBuf, 65536, f)` call on the remaining input: consume at most
    `n` characters, stopping after a newline; the newline is kept. -/
def fgetsOne : List Char → Nat → List Char × List Char
  | [], _ => ([], [])
  | c :: rest, 0 => ([], c :: rest)
  | c :: rest, n + 1 =>
    if c = '\n' then ([c], rest)
    else
      let p := fgetsOne rest n
      (c :: p.1, p.2)

/-- The sequence of strings successive `fgets` calls with a 65536-byte buffer
    return for a file (each at most 65535 characters; a final line without a
    newline is returned as-is). -/
def fgetsSplitGo : Nat → List Char → List (List Char)
  | _, [] => []
  | 0, _ :: _ => []
  | fuel + 1, c :: rest =>
    let p := fgetsOne (c :: rest) 65535
    p.1 :: fgetsSplitGo fuel p.2

/-- All lines `fgets` yields for a file. -/
def fgetsSplit (file : List Char) : List (List Char) :=
  fgetsSplitGo file.length file

/-- Strip the terminating newline an `fgets` line carries, so that serial and
    parallel paths hand the tokenizer the same field content (the newline is
    field-separating whitespace for the tokenizer). -/
def stripNl (l : List Char) : List Char :=
  if l.getLast? = some '\n' then l.dropLast else l

/-- The serial read loop of `processFile` (logpi.c lines 709-857): each fgets
    line is parsed and `totLineCount` then advances.  The source advances the
    counter only under `parseLine(inBuf) > 0`; parseLine (external parser.c) is
    modelled as always returning at least 1 for a delivered line, so every line
    counts. -/
def serialGo (tok : Tok) : List (List Char) → Nat → List IndexRec
  | [], _ => []
  | l :: rest, n => line_records tok n (stripNl l) ++ serialGo tok rest (n + 1)

/-- The records the serial pipeline collects for a file. -/
def serial_index (tok : Tok) (file : List Char) : List IndexRec :=
  serialGo tok (fgetsSplit file) 0

/-- Whitespace field splitting: maximal runs of non-space characters. -/
def splitFieldsGo : List Char → List Char → List (List Char)
  | [], acc => if acc.isEmpty then [] else [acc.reverse]
  | c :: rest, acc =>
    if c = ' ' then
      if acc.isEmpty then splitFieldsGo rest []
      else acc.reverse :: splitFieldsGo rest []
    else splitFieldsGo rest (c :: acc)

/-- The fields of a line. -/
def splitFields (l : List Char) : List (List Char) :=
  splitFieldsGo l []

/-- Modelled from the spec: the line tokenizer (`parseLine`/`getParsedField`
    of parser.c, which is not among the sources).  Per spec sections 4.2 and 6
    it yields the whitespace-separated fields of a line with 1-based stable
    indices and tags address-like fields; a field is treated as an IPv4
    address field exactly when the entire field is a dotted-quad address
    (spec section 4.1; scenarios 1 and 6 of section 8 fix this concrete
    behaviour).  Only IPv4 fields occur in the inputs used below. -/
def specTok : Tok := fun content =>
  (splitFields content).map fun f =>
    match fast_extract_ipv4 f with
    | some r => if r.length = f.length then some r.str else none
    | none => none

/-- The byte string `10.0.0.1`. -/
def addr1 : List Char := ['1', '0', '.', '0', '.', '0', '.', '1']

/-- The file `10.0.0.1\n10.0.0.1` whose final line has no newline. -/
def fileTwoLines : List Char := addr1 ++ '\n' :: addr1

/-- The file `a b\n10.0.0.1` whose final line has no newline. -/
def fileTailAfterText : List Char := ['a', ' ', 'b', '\n'] ++ addr1

/- ===== Theorems ===== -/

/-- Claim C1 (code bug): the parallel pipeline is NOT output-equivalent to the
    serial one.  On the file `10.0.0.1\n10.0.0.1` (final line unterminated) the
    serial loop indexes both occurrences, while `io_thread` leaves the final
    carry-forward unemitted and `process_chunk` only visits newline-terminated
    lines, so the parallel pipeline indexes only the first occurrence; the
    emitted index records therefore differ.  The record multiset of the
    parallel run does not depend on worker scheduling, so this divergence is
    schedule-independent. -/
theorem c1_parallel_output_differs_from_serial :
    serial_index specTok fileTwoLines
      = [{ addr := addr1, line := 0, field := 1 },
         { addr := addr1, line := 1, field := 1 }]
    ∧ parallel_index specTok 1048576 fileTwoLines
        = [{ addr := addr1, line := 0, field := 1 }]
    ∧ serial_index specTok fileTwoLines ≠ parallel_index specTok 1048576 fileTwoLines :=
  ⟨by decide, by decide, by decide⟩

/-- Claim C7 (code bug): the serial path does process an unterminated final
    line (in particular the spec's scenario input `10.0.0.1` yields the single
    record `10.0.0.1,1,1:1`), but the parallel path drops such a line
    entirely: on `a b\n10.0.0.1` the parallel pipeline indexes nothing at all,
    against the claim that the final line is always processed. -/
theorem c7_unterminated_final_line_dropped :
    serial_index specTok addr1 = [{ addr := addr1, line := 0, field := 1 }]
    ∧ serial_index specTok fileTailAfterText
        = [{ addr := addr1, line := 1, field := 1 }]
    ∧ parallel_index specTok 1048576 fileTailAfterText = [] :=
  ⟨by decide, by decide, by decide⟩

/-- Claim C3 (code bug): in the hash-thread race path, when the target array
    is full and the grow fails, the source still increments the per-thread
    count, so the emitted COUNT (65) exceeds the number of location pairs the
    k-way merge can stream (64): COUNT no longer equals the number of
    LINE:FIELD pairs of that record. -/
theorem c3_count_exceeds_pairs_on_failed_grow :
    record_total_count [raceSlotAfter] = 65
    ∧ (stream_sorted_locations [thread_entries raceSlotAfter]).length = 64 :=
  ⟨by decide, by decide⟩

/-- Claim C6 counterexample: on the serial path of `processFile`, a location
    array grow whose reallocation fails makes the program `abort()` instead of
    dropping the location and continuing, refuting the claim that a failed
    LocationArray grow is always absorbed. -/
theorem c6_serial_grow_failure_aborts :
    (grow_location_array fullArray64 (next_capacity fullArray64.capacity) false).1 = false
    ∧ serial_append fullArray64 { line := 7, offset := 1 } false = SerialAppend.abort :=
  ⟨by decide, by decide⟩

/-- Claim C6 as amended: in the parallel worker path (`buffer_address_local`),
    a grow failure drops exactly that location — the array is returned
    unchanged — and the worker continues (the model has no abort outcome on
    this path, mirroring the source's `return FALSE`). -/
theorem c6_parallel_grow_failure_drops (a : LocationArray) (loc : Location)
    (hfull : a.capacity ≤ a.entries.length) :
    worker_append a loc false = WorkerAppend.dropped a := by
  have hadd : add_location_atomic a loc = (false, a) := by
    simp [add_location_atomic, hfull]
  have hgrow : grow_location_array a (next_capacity a.capacity) false = (false, a) := by
    unfold grow_location_array
    split <;> rfl
  unfold worker_append
  rw [hadd]
  simp [hgrow]

/-- Witness for `c6_parallel_grow_failure_drops` at a concrete full array. -/
theorem c6_parallel_grow_failure_drops_witness :
    fullArray64.capacity ≤ fullArray64.entries.length
    ∧ worker_append fullArray64 { line := 7, offset := 2 } false
        = WorkerAppend.dropped fullArray64 :=
  ⟨by decide,
    c6_parallel_grow_failure_drops fullArray64 { line := 7, offset := 2 } (by decide)⟩

/-- Claim C5 counterexample: the claimed mode-selection condition differs from
    the code on two concrete inputs.  At exactly 100 MiB (with `-w`, 4 cores,
    serial not forced) the code goes parallel though the size does not exceed
    100 MiB; on a 200 MiB file without `-w` the code stays serial though the
    claimed condition holds. -/
theorem c5_mode_selection_differs :
    use_parallel_decision modeBoundary = true
    ∧ claimed_use_parallel modeBoundary = false
    ∧ use_parallel_decision modeStdout = false
    ∧ claimed_use_parallel modeStdout = true :=
  ⟨by decide, by decide, by decide, by decide⟩

/-- Claim C9 counterexample: `fast_extract_ipv6` stores the matched span
    verbatim (`memcpy` of the input), so the token `AB::1` is emitted as
    `AB::1`, not lowercased to `ab::1` as the claim requires. -/
theorem c9_uppercase_not_lowercased :
    fast_extract_ipv6 ['A', 'B', ':', ':', '1']
      = some { length := 5, str := ['A', 'B', ':', ':', '1'] }
    ∧ (['A', 'B', ':', ':', '1'] : List Char) ≠ ['a', 'b', ':', ':', '1'] :=
  ⟨by decide, by decide⟩

/-- Claim C8: when an append finds the location array full, the capacity
    requested from `grow_location_array` for the retry is exactly twice the
    current capacity when the current capacity is below 1048576 entries, and
    the current capacity plus a quarter of it otherwise; under a successful
    reallocation the retried append then stores the location at that capacity.
    Stated on the worker path (`buffer_address_local`); the serial path and
    the hash thread compute the identical `next_capacity`. -/
theorem c8_growth_policy_on_full_array (a : LocationArray) (loc : Location)
    (hfull : a.entries.length = a.capacity) (hpos : 0 < a.capacity)
    (hbound : a.capacity < 2 ^ 59) :
    next_capacity a.capacity
      = (if a.capacity < 1048576 then 2 * a.capacity else a.capacity + a.capacity / 4)
    ∧ worker_append a loc true
      = WorkerAppend.ok { entries := a.entries ++ [loc],
                          capacity := next_capacity a.capacity } := by
  have h59 : (2 : Nat) ^ 59 = 576460752303423488 := by norm_num
  have hlim : growCapacityLimit = 1152921504606846975 := by norm_num [growCapacityLimit]
  have hnext : a.capacity < next_capacity a.capacity := by
    unfold next_capacity; split <;> omega
  have hnextle : next_capacity a.capacity ≤ growCapacityLimit := by
    unfold next_capacity; split <;> omega
  constructor
  · unfold next_capacity
    split_ifs <;> omega
  · have hadd : add_location_atomic a loc = (false, a) := by
      simp [add_location_atomic, hfull]
    have hgrow : grow_location_array a (next_capacity a.capacity) true
        = (true, { entries := a.entries, capacity := next_capacity a.capacity }) := by
      unfold grow_location_array
      rw [if_neg (by omega)]
      rfl
    have hadd2 : add_location_atomic
          { entries := a.entries, capacity := next_capacity a.capacity } loc
        = (true, { entries := a.entries ++ [loc], capacity := next_capacity a.capacity }) := by
      unfold add_location_atomic
      rw [if_neg (by show ¬ next_capacity a.capacity ≤ a.entries.length; omega)]
    unfold worker_append
    simp only [hadd, hgrow, hadd2]

/-- Witness for `c8_growth_policy_on_full_array` at a concrete full array of
    capacity 64. -/
theorem c8_growth_policy_witness :
    (fullArray64.entries.length = fullArray64.capacity ∧ 0 < fullArray64.capacity
      ∧ fullArray64.capacity < 2 ^ 59)
    ∧ (next_capacity fullArray64.capacity
        = (if fullArray64.capacity < 1048576 then 2 * fullArray64.capacity
           else fullArray64.capacity + fullArray64.capacity / 4)
      ∧ worker_append fullArray64 { line := 5, offset := 2 } true
        = WorkerAppend.ok { entries := fullArray64.entries ++ [{ line := 5, offset := 2 }],
                            capacity := next_capacity fullArray64.capacity }) :=
  ⟨⟨by decide, by decide, by decide⟩,
    c8_growth_policy_on_full_array fullArray64 { line := 5, offset := 2 }
      (by decide) (by decide) (by decide)⟩

/-- Claim C5 as amended: the code takes the parallel path if and only if the
    input is non-gzip and non-stdin, serial mode is not forced, per-file index
    output (`-w`) is enabled, the file size is at least 100 MiB, and at least
    two cores are available; whenever the parallel path is taken, the worker
    count equals `max 2 (min 8 (cores / 2))`. -/
theorem c5_mode_selection_amended (m : ModeInput) :
    (use_parallel_decision m = true
      ↔ (m.isGz = false ∧ m.isStdin = false ∧ m.force_serial = false
          ∧ m.auto_lpi_naming = true ∧ MIN_FILE_SIZE_FOR_PARALLEL ≤ m.file_size
          ∧ 2 ≤ m.cores))
    ∧ (use_parallel_decision m = true →
        parallel_worker_count m.cores m.file_size = max 2 (min 8 (m.cores / 2))) := by
  have hiff : use_parallel_decision m = true
      ↔ (m.isGz = false ∧ m.isStdin = false ∧ m.force_serial = false
          ∧ m.auto_lpi_naming = true ∧ MIN_FILE_SIZE_FOR_PARALLEL ≤ m.file_size
          ∧ 2 ≤ m.cores) := by
    unfold use_parallel_decision should_use_parallel MIN_FILE_SIZE_FOR_PARALLEL
    split_ifs <;> simp_all
  refine ⟨hiff, fun hp => ?_⟩
  have hfs' : 104857600 ≤ m.file_size := by
    simpa [MIN_FILE_SIZE_FOR_PARALLEL] using (hiff.1 hp).2.2.2.2.1
  have hth : ∀ t : Nat, 2 ≤ t → t ≤ 8 → ¬ m.file_size / t < 1048576 := by
    intro t h2 h8 hlt
    have ha : (104857600 : Nat) / 8 ≤ m.file_size / 8 :=
      Nat.div_le_div_right hfs'
    have hb : m.file_size / 8 ≤ m.file_size / t :=
      Nat.div_le_div_left h8 (by omega)
    omega
  simp only [parallel_worker_count, MIN_CHUNK_SIZE]
  split_ifs <;>
    first
      | omega
      | (exfalso
         exact hth (m.cores / 2) (by omega) (by omega) (by assumption))

/-- Witness for `c5_mode_selection_amended` at the concrete boundary input:
    the parallel path is taken there, and the worker-count conclusion is
    obtained by applying the theorem. -/
theorem c5_mode_selection_amended_witness :
    use_parallel_decision modeBoundary = true
    ∧ parallel_worker_count modeBoundary.cores modeBoundary.file_size
        = max 2 (min 8 (modeBoundary.cores / 2)) :=
  ⟨by decide, (c5_mode_selection_amended modeBoundary).2 (by decide)⟩

/-- Every successful run of the validation step stores the consumed input
    span verbatim. -/
theorem ipv6Validate_str {s : List Char} {groups : List Nat} {dc : Option Nat}
    {consumed : Nat} {r : NetAddrV6}
    (h : ipv6Validate s groups dc consumed = some r) :
    r.str = List.take r.length s := by
  unfold ipv6Validate at h
  split at h <;> split at h <;>
    first
      | (simp only [Option.some.injEq] at h
         subst h
         rfl)
      | (exact absurd h (by simp))

/-- Every successful run of the post-loop flush stores the consumed input
    span verbatim. -/
theorem ipv6Finish_str {s : List Char} {groups : List Nat} {dc : Option Nat}
    {digits value consumed : Nat} {r : NetAddrV6}
    (h : ipv6Finish s groups dc digits value consumed = some r) :
    r.str = List.take r.length s := by
  unfold ipv6Finish at h
  split at h
  · split at h
    · simp at h
    · exact ipv6Validate_str h
  · exact ipv6Validate_str h

/-- Every successful run of the scanning loop stores the consumed input span
    verbatim. -/
theorem ipv6Go_str (s : List Char) :
    ∀ (fuel : Nat) (l : List Char) (consumed digits value : Nat)
      (groups : List Nat) (dc : Option Nat) (r : NetAddrV6),
      ipv6Go s fuel l consumed digits value groups dc = some r →
      r.str = List.take r.length s := by
  intro fuel
  induction fuel with
  | zero =>
    intro l c d v g dc r h
    exact absurd h (by simp [ipv6Go])
  | succ fuel ih =>
    intro l c d v g dc r h
    cases l with
    | nil => exact ipv6Finish_str (by simpa [ipv6Go] using h)
    | cons ch rest =>
      unfold ipv6Go at h
      repeat' split at h
      all_goals
        first
          | exact ipv6Finish_str h
          | exact ipv6Validate_str h
          | exact ih _ _ _ _ _ _ _ h
          | simp at h

/-- Claim C9 as amended: on every token it accepts, `fast_extract_ipv6` emits
    the parsed literal byte-for-byte (case and any `::` compression exactly as
    they appeared in the input): the stored string is the consumed prefix of
    the candidate, with no lowercasing. -/
theorem c9_canonical_is_verbatim_span (s : List Char) (r : NetAddrV6)
    (h : fast_extract_ipv6 s = some r) :
    r.str = List.take r.length s := by
  unfold fast_extract_ipv6 at h
  split at h
  · simp at h
  · exact ipv6Go_str s _ _ _ _ _ _ _ _ h

/-- Witness for `c9_canonical_is_verbatim_span` at the token `::1`. -/
theorem c9_canonical_verbatim_witness :
    fast_extract_ipv6 [':', ':', '1'] = some { length := 3, str := [':', ':', '1'] }
    ∧ ({ length := 3, str := [':', ':', '1'] } : NetAddrV6).str
        = List.take ({ length := 3, str := [':', ':', '1'] } : NetAddrV6).length
            [':', ':', '1'] :=
  ⟨by decide, c9_canonical_is_verbatim_span [':', ':', '1'] _ (by decide)⟩

/-- Claim C2 counterexample: `compare_locations` ignores the field position and
    C's qsort guarantees only a comparator-ordered permutation, so
    `[(7,3), (7,1)]` is a permitted qsort result of the insertion-ordered array
    `[(7,1), (7,3)]`; the merge then emits `7:3` before `7:1`, violating the
    claimed field-ascending order among equal line numbers. -/
theorem c2_equal_line_field_order_not_guaranteed :
    IsQsortResult compare_locations
      [{ line := 7, offset := 1 }, { line := 7, offset := 3 }]
      [{ line := 7, offset := 3 }, { line := 7, offset := 1 }]
    ∧ stream_sorted_locations [[{ line := 7, offset := 3 }, { line := 7, offset := 1 }]]
        = [{ line := 7, offset := 3 }, { line := 7, offset := 1 }]
    ∧ ¬ List.Chain'
        (fun x y : Location => x.line < y.line ∨ (x.line = y.line ∧ x.offset ≤ y.offset))
        [{ line := 7, offset := 3 }, { line := 7, offset := 1 }] :=
  ⟨⟨by decide, List.chain'_cons.2 ⟨by decide, List.chain'_singleton _⟩⟩,
    by decide,
    fun hc => absurd (List.chain'_cons.1 hc).1 (by decide)⟩

/-- In a line-sorted run, the head is a lower bound for every element. -/
theorem chain'_line_head_le :
    ∀ (t : List Location) (a x : Location),
      (a :: t).Chain' (fun u v => u.line ≤ v.line) → x ∈ a :: t → a.line ≤ x.line := by
  intro t
  induction t with
  | nil =>
    intro a x _ hx
    simp at hx
    subst hx
    exact Nat.le_refl _
  | cons b t2 ih =>
    intro a x hc hx
    have h1 : a.line ≤ b.line := (List.chain'_cons.1 hc).1
    have h2 := (List.chain'_cons.1 hc).2
    rcases List.mem_cons.1 hx with rfl | hx2
    · exact Nat.le_refl _
    · exact Nat.le_trans h1 (ih b x h2 hx2)

/-- The scan of `findMinFrom` returns a location whose line number is at most
    that of the accumulator's candidate and of every array head. -/
theorem findMinFrom_le :
    ∀ (arrays : List (List Location)) (k : Nat) (acc : Option (Nat × Location))
      (i : Nat) (loc : Location),
      findMinFrom k acc arrays = some (i, loc) →
      (∀ p ∈ acc, loc.line ≤ (p.2).line)
      ∧ ∀ arr ∈ arrays, ∀ h ∈ arr.head?, loc.line ≤ h.line := by
  intro arrays
  induction arrays with
  | nil =>
    intro k acc i loc h
    simp only [findMinFrom] at h
    subst h
    constructor
    · intro p hp
      simp only [Option.mem_def, Option.some.injEq] at hp
      subst hp
      exact Nat.le_refl _
    · intro arr harr
      exact absurd harr (List.not_mem_nil _)
  | cons arr rest ih =>
    intro k acc i loc h
    cases arr with
    | nil =>
      have h' := ih (k + 1) acc i loc (by simpa [findMinFrom] using h)
      refine ⟨h'.1, ?_⟩
      intro arr2 h2 hd hh
      rcases List.mem_cons.1 h2 with rfl | h3
      · simp at hh
      · exact h'.2 arr2 h3 hd hh
    | cons a t =>
      cases acc with
      | none =>
        have h' := ih (k + 1) (some (k, a)) i loc (by simpa [findMinFrom] using h)
        have hla : loc.line ≤ a.line := h'.1 (k, a) rfl
        refine ⟨by simp, ?_⟩
        intro arr2 h2 hd hh
        rcases List.mem_cons.1 h2 with rfl | h3
        · simp at hh; subst hh; exact hla
        · exact h'.2 arr2 h3 hd hh
      | some p =>
        obtain ⟨j, best⟩ := p
        by_cases hcmp : a.line < best.line
        · have h' := ih (k + 1) (some (k, a)) i loc
            (by simpa [findMinFrom, hcmp] using h)
          have hla : loc.line ≤ a.line := h'.1 (k, a) rfl
          refine ⟨?_, ?_⟩
          · intro q hq
            simp only [Option.mem_def, Option.some.injEq] at hq
            subst hq
            show loc.line ≤ best.line
            omega
          · intro arr2 h2 hd hh
            rcases List.mem_cons.1 h2 with rfl | h3
            · simp at hh; subst hh; exact hla
            · exact h'.2 arr2 h3 hd hh
        · have h' := ih (k + 1) (some (j, best)) i loc
            (by simpa [findMinFrom, hcmp] using h)
          have hlb : loc.line ≤ best.line := h'.1 (j, best) rfl
          refine ⟨?_, ?_⟩
          · intro q hq
            simp only [Option.mem_def, Option.some.injEq] at hq
            subst hq
            exact hlb
          · intro arr2 h2 hd hh
            rcases List.mem_cons.1 h2 with rfl | h3
            · simp at hh; subst hh; omega
            · exact h'.2 arr2 h3 hd hh

/-- The scan of `findMinFrom` returns either the accumulator's candidate or
    the head of one of the arrays. -/
theorem findMinFrom_mem :
    ∀ (arrays : List (List Location)) (k : Nat) (acc : Option (Nat × Location))
      (i : Nat) (loc : Location),
      findMinFrom k acc arrays = some (i, loc) →
      (∃ p ∈ acc, p.2 = loc) ∨ ∃ arr ∈ arrays, arr.head? = some loc := by
  intro arrays
  induction arrays with
  | nil =>
    intro k acc i loc h
    simp only [findMinFrom] at h
    subst h
    exact Or.inl ⟨(i, loc), rfl, rfl⟩
  | cons arr rest ih =>
    intro k acc i loc h
    cases arr with
    | nil =>
      rcases ih (k + 1) acc i loc (by simpa [findMinFrom] using h) with h' | ⟨arr2, h2, h3⟩
      · exact Or.inl h'
      · exact Or.inr ⟨arr2, List.mem_cons_of_mem _ h2, h3⟩
    | cons a t =>
      cases acc with
      | none =>
        rcases ih (k + 1) (some (k, a)) i loc (by simpa [findMinFrom] using h) with
          ⟨p, hp, he⟩ | ⟨arr2, h2, h3⟩
        · simp only [Option.mem_def, Option.some.injEq] at hp
          subst hp
          have he2 : a = loc := he
          exact Or.inr ⟨a :: t, List.mem_cons_self _ _, by simp [he2]⟩
        · exact Or.inr ⟨arr2, List.mem_cons_of_mem _ h2, h3⟩
      | some p =>
        obtain ⟨j, best⟩ := p
        by_cases hcmp : a.line < best.line
        · rcases ih (k + 1) (some (k, a)) i loc
            (by simpa [findMinFrom, hcmp] using h) with ⟨q, hq, he⟩ | ⟨arr2, h2, h3⟩
          · simp only [Option.mem_def, Option.some.injEq] at hq
            subst hq
            have he2 : a = loc := he
            exact Or.inr ⟨a :: t, List.mem_cons_self _ _, by simp [he2]⟩
          · exact Or.inr ⟨arr2, List.mem_cons_of_mem _ h2, h3⟩
        · rcases ih (k + 1) (some (j, best)) i loc
            (by simpa [findMinFrom, hcmp] using h) with ⟨q, hq, he⟩ | ⟨arr2, h2, h3⟩
          · simp only [Option.mem_def, Option.some.injEq] at hq
            subst hq
            exact Or.inl ⟨(j, best), rfl, he⟩
          · exact Or.inr ⟨arr2, List.mem_cons_of_mem _ h2, h3⟩

/-- Advancing one cursor leaves every array either unchanged or replaced by
    its tail. -/
theorem advanceAt_mem :
    ∀ (arrays : List (List Location)) (i : Nat) (arr2 : List Location),
      arr2 ∈ advanceAt arrays i → arr2 ∈ arrays ∨ ∃ arr ∈ arrays, arr2 = arr.tail := by
  intro arrays
  induction arrays with
  | nil =>
    intro i arr2 h
    simp [advanceAt] at h
  | cons a rest ih =>
    intro i arr2 h
    cases i with
    | zero =>
      simp only [advanceAt] at h
      rcases List.mem_cons.1 h with rfl | h2
      · exact Or.inr ⟨a, List.mem_cons_self _ _, rfl⟩
      · exact Or.inl (List.mem_cons_of_mem _ h2)
    | succ n =>
      simp only [advanceAt] at h
      rcases List.mem_cons.1 h with rfl | h2
      · exact Or.inl (List.mem_cons_self _ _)
      · rcases ih n arr2 h2 with h3 | ⟨arr, h4, h5⟩
        · exact Or.inl (List.mem_cons_of_mem _ h3)
        · exact Or.inr ⟨arr, List.mem_cons_of_mem _ h4, h5⟩

/-- A lower bound on every element of every array is a lower bound on every
    element emitted by the merge loop. -/
theorem streamMerge_lb :
    ∀ (fuel : Nat) (arrays : List (List Location)) (n : Nat),
      (∀ arr ∈ arrays, ∀ x ∈ arr, n ≤ x.line) →
      ∀ x ∈ streamMerge fuel arrays, n ≤ x.line := by
  intro fuel
  induction fuel with
  | zero =>
    intro arrays n _ x hx
    simp [streamMerge] at hx
  | succ fuel ih =>
    intro arrays n hlb x hx
    unfold streamMerge at hx
    cases hfind : findMinThread arrays with
    | none => rw [hfind] at hx; simp at hx
    | some p =>
      obtain ⟨i, loc⟩ := p
      rw [hfind] at hx
      rcases List.mem_cons.1 hx with rfl | hx2
      · rcases findMinFrom_mem arrays 0 none i x hfind with ⟨q, hq, _⟩ | ⟨arr, ha, hh⟩
        · simp at hq
        · cases arr with
          | nil => simp at hh
          | cons a t =>
            simp at hh
            subst hh
            exact hlb _ ha _ (List.mem_cons_self _ _)
      · refine ih (advanceAt arrays i) n ?_ x hx2
        intro arr2 h2 y hy
        rcases advanceAt_mem arrays i arr2 h2 with h3 | ⟨arr, harr, rfl⟩
        · exact hlb arr2 h3 y hy
        · exact hlb arr harr y (List.mem_of_mem_tail hy)

/-- The merge loop of `stream_sorted_locations` emits non-decreasing line
    numbers whenever every input array is line-sorted. -/
theorem streamMerge_chain :
    ∀ (fuel : Nat) (arrays : List (List Location)),
      (∀ arr ∈ arrays, arr.Chain' (fun x y => x.line ≤ y.line)) →
      (streamMerge fuel arrays).Chain' (fun x y => x.line ≤ y.line) := by
  intro fuel
  induction fuel with
  | zero =>
    intro arrays _
    simp [streamMerge]
  | succ fuel ih =>
    intro arrays hs
    unfold streamMerge
    cases hfind : findMinThread arrays with
    | none => simp
    | some p =>
      obtain ⟨i, loc⟩ := p
      have hs2 : ∀ arr ∈ advanceAt arrays i, arr.Chain' (fun x y => x.line ≤ y.line) := by
        intro arr2 h2
        rcases advanceAt_mem arrays i arr2 h2 with h3 | ⟨arr, harr, rfl⟩
        · exact hs arr2 h3
        · exact (hs arr harr).tail
      have hmin := (findMinFrom_le arrays 0 none i loc hfind).2
      have hlb : ∀ arr ∈ advanceAt arrays i, ∀ x ∈ arr, loc.line ≤ x.line := by
        intro arr2 h2 x hx
        rcases advanceAt_mem arrays i arr2 h2 with h3 | ⟨arr, harr, rfl⟩
        · cases arr2 with
          | nil => simp at hx
          | cons a t =>
            have hla : loc.line ≤ a.line := hmin (a :: t) h3 a (by simp)
            exact Nat.le_trans hla (chain'_line_head_le t a x (hs _ h3) hx)
        · cases arr with
          | nil => simp at hx
          | cons a t =>
            have hla : loc.line ≤ a.line := hmin (a :: t) harr a (by simp)
            exact Nat.le_trans hla
              (chain'_line_head_le t a x (hs _ harr) (List.mem_cons_of_mem a hx))
      refine List.Chain'.cons' (ih _ hs2) ?_
      intro y hy
      have hym : y ∈ streamMerge fuel (advanceAt arrays i) := by
        cases hmerge : streamMerge fuel (advanceAt arrays i) with
        | nil => rw [hmerge] at hy; simp at hy
        | cons z zs =>
          rw [hmerge] at hy
          simp at hy
          subst hy
          exact List.mem_cons_self _ _
      exact streamMerge_lb fuel (advanceAt arrays i) loc.line hlb y hym

/-- Claim C2 as amended: within a record the emitted location pairs have
    non-decreasing line numbers, for any comparator-ordered permutations the
    qsort calls may produce for the per-thread arrays (the relative order of
    pairs with equal line numbers is not constrained). -/
theorem c2_record_lines_nondecreasing
    (outputs : List (List Location))
    (hq : ∀ arr ∈ outputs, arr.Chain' (fun x y => compare_locations x y ≤ 0)) :
    (stream_sorted_locations outputs).Chain' (fun x y => x.line ≤ y.line) := by
  have hs : ∀ arr ∈ outputs, arr.Chain' (fun x y => x.line ≤ y.line) := by
    intro arr ha
    refine (hq arr ha).imp ?_
    intro x y hxy
    unfold compare_locations at hxy
    split_ifs at hxy <;> omega
  exact streamMerge_chain _ outputs hs

/-- Witness for `c2_record_lines_nondecreasing` on two concrete sorted
    per-thread arrays. -/
theorem c2_record_lines_nondecreasing_witness :
    (∀ arr ∈ [[({ line := 1, offset := 1 } : Location), { line := 2, offset := 1 }],
              [({ line := 2, offset := 2 } : Location)]],
        arr.Chain' (fun x y => compare_locations x y ≤ 0))
    ∧ (stream_sorted_locations
        [[({ line := 1, offset := 1 } : Location), { line := 2, offset := 1 }],
         [({ line := 2, offset := 2 } : Location)]]).Chain'
        (fun x y => x.line ≤ y.line) := by
  have hq : ∀ arr ∈ [[({ line := 1, offset := 1 } : Location), { line := 2, offset := 1 }],
      [({ line := 2, offset := 2 } : Location)]],
      arr.Chain' (fun x y => compare_locations x y ≤ 0) := by
    intro arr harr
    rcases List.mem_cons.1 harr with rfl | h2
    · exact List.chain'_cons.2 ⟨by decide, List.chain'_singleton _⟩
    · rcases List.mem_cons.1 h2 with rfl | h3
      · exact List.chain'_singleton _
      · exact absurd h3 (List.not_mem_nil _)
  exact ⟨hq, c2_record_lines_nondecreasing _ hq⟩

/-- `strcmp` reports equality exactly on equal byte strings. -/
theorem strcmp_eq_zero_iff : ∀ (a b : List Nat), strcmp a b = 0 ↔ a = b := by
  intro a
  induction a with
  | nil =>
    intro b
    cases b <;> simp [strcmp]
  | cons x as ih =>
    intro b
    cases b with
    | nil => simp [strcmp]
    | cons y bs =>
      unfold strcmp
      split_ifs with h1 h2
      · constructor
        · intro hc; exact absurd hc (by decide)
        · intro hc; cases hc; omega
      · constructor
        · intro hc; exact absurd hc (by decide)
        · intro hc; cases hc; omega
      · have hxy : x = y := by omega
        subst hxy
        simp [ih]

/-- `strcmp`'s strict order is transitive. -/
theorem strcmp_lt_trans : ∀ (a b c : List Nat),
    strcmp a b < 0 → strcmp b c < 0 → strcmp a c < 0 := by
  intro a
  induction a with
  | nil =>
    intro b c hab hbc
    cases c with
    | nil =>
      cases b <;> simp [strcmp] at hbc
    | cons z cs => simp [strcmp]
  | cons x as ih =>
    intro b c hab hbc
    cases b with
    | nil => simp [strcmp] at hab
    | cons y bs =>
      cases c with
      | nil =>
        unfold strcmp at hbc
        omega
      | cons z cs =>
        unfold strcmp at hab hbc ⊢
        split_ifs at hab hbc ⊢ <;>
          first
            | omega
            | exact ih bs cs hab hbc

/-- Pointwise conjunction of two adjacency chains. -/
theorem chain'_combine {α : Type} {R S T : α → α → Prop}
    (him : ∀ x y, R x y → S x y → T x y) :
    ∀ {l : List α}, l.Chain' R → l.Chain' S → l.Chain' T := by
  intro l
  induction l with
  | nil => intro _ _; exact List.chain'_nil
  | cons a t ih =>
    intro hr hs
    cases t with
    | nil => exact List.chain'_singleton a
    | cons b t2 =>
      rw [List.chain'_cons] at hr hs ⊢
      exact ⟨him a b hr.1 hs.1, ih hr.2 hs.2⟩

/-- Claim C4: any qsort result for `compare_addresses_for_output` over records
    with pairwise distinct addresses (hash keys are unique) is ordered by
    total count descending, with equal counts ordered by strictly ascending
    `strcmp` byte order. -/
theorem c4_records_sorted_by_count_desc_addr_asc
    (input output : List AddressForSorting)
    (hq : IsQsortResult compare_addresses_for_output input output)
    (hd : input.Pairwise (fun x y => x.address ≠ y.address)) :
    output.Pairwise (fun x y =>
      y.total_count < x.total_count
      ∨ (x.total_count = y.total_count ∧ strcmp x.address y.address < 0)) := by
  obtain ⟨hperm, hchain⟩ := hq
  have hd2 : output.Pairwise (fun x y => x.address ≠ y.address) :=
    (hperm.pairwise_iff (fun {x y} h he => h he.symm)).2 hd
  have hR : output.Chain' (fun x y =>
      y.total_count < x.total_count
      ∨ (x.total_count = y.total_count ∧ strcmp x.address y.address < 0)) := by
    refine chain'_combine ?_ hchain hd2.chain'
    intro x y hc hne
    unfold compare_addresses_for_output at hc
    split_ifs at hc with h1 h2
    · exact Or.inl h1
    · omega
    · refine Or.inr ⟨by omega, ?_⟩
      have hnz : strcmp x.address y.address ≠ 0 :=
        fun h0 => hne ((strcmp_eq_zero_iff _ _).1 h0)
      omega
  have htr : IsTrans AddressForSorting (fun x y =>
      y.total_count < x.total_count
      ∨ (x.total_count = y.total_count ∧ strcmp x.address y.address < 0)) := by
    constructor
    intro a b c hab hbc
    rcases hab with h1 | ⟨h1e, h1s⟩ <;> rcases hbc with h2 | ⟨h2e, h2s⟩
    · exact Or.inl (by omega)
    · exact Or.inl (by omega)
    · exact Or.inl (by omega)
    · exact Or.inr ⟨by omega, strcmp_lt_trans _ _ _ h1s h2s⟩
  exact List.chain'_iff_pairwise.1 hR

/-- Witness for `c4_records_sorted_by_count_desc_addr_asc` on a concrete
    three-record collection. -/
theorem c4_records_sorted_witness :
    (IsQsortResult compare_addresses_for_output
        [{ address := [50], total_count := 1 }, { address := [49], total_count := 2 },
         { address := [51], total_count := 1 }]
        [{ address := [49], total_count := 2 }, { address := [50], total_count := 1 },
         { address := [51], total_count := 1 }]
      ∧ List.Pairwise (fun x y => x.address ≠ y.address)
        [({ address := [50], total_count := 1 } : AddressForSorting),
         { address := [49], total_count := 2 }, { address := [51], total_count := 1 }])
    ∧ List.Pairwise (fun x y =>
        y.total_count < x.total_count
        ∨ (x.total_count = y.total_count ∧ strcmp x.address y.address < 0))
      [({ address := [49], total_count := 2 } : AddressForSorting),
       { address := [50], total_count := 1 }, { address := [51], total_count := 1 }] := by
  have hq : IsQsortResult compare_addresses_for_output
      [{ address := [50], total_count := 1 }, { address := [49], total_count := 2 },
       { address := [51], total_count := 1 }]
      [{ address := [49], total_count := 2 }, { address := [50], total_count := 1 },
       { address := [51], total_count := 1 }] :=
    ⟨by decide,
      List.chain'_cons.2 ⟨by decide, List.chain'_cons.2 ⟨by decide, List.chain'_singleton _⟩⟩⟩
  have hd : List.Pairwise (fun x y => x.address ≠ y.address)
      [({ address := [50], total_count := 1 } : AddressForSorting),
       { address := [49], total_count := 2 }, { address := [51], total_count := 1 }] := by
    refine List.Pairwise.cons ?_ (List.Pairwise.cons ?_ (List.pairwise_singleton _ _)) <;>
      intro z hz <;> fin_cases hz <;> decide
  exact ⟨⟨hq, hd⟩, c4_records_sorted_by_count_desc_addr_asc _ _ hq hd⟩

/-- The worker's processed-line counter counts exactly the lines the length
    filter admits. -/
theorem linesProcessedGo_eq :
    ∀ (lines : List (List Char)) (c : Nat),
      linesProcessedGo lines c
        = c + lines.countP (fun l => decide (0 < l.length ∧ l.length < 65535)) := by
  intro lines
  induction lines with
  | nil => intro c; simp [linesProcessedGo]
  | cons l rest ih =>
    intro c
    unfold linesProcessedGo
    split_ifs with h
    · rw [ih, List.countP_cons]
      simp [h]
      omega
    · rw [ih, List.countP_cons]
      simp [h]

/-- A line the filter rejects contributes no records and leaves the counter
    and the numbering of everything after it unchanged. -/
theorem processChunkGo_skip (tok : Tok) (base : Nat) (l : List Char)
    (hskip : ¬ (0 < l.length ∧ l.length < 65535)) :
    ∀ (pre post : List (List Char)) (c : Nat),
      processChunkGo tok base (pre ++ l :: post) c
        = processChunkGo tok base (pre ++ post) c := by
  intro pre
  induction pre with
  | nil =>
    intro post c
    simp only [List.nil_append]
    conv_lhs => unfold processChunkGo
    rw [if_neg hskip]
  | cons p pre2 ih =>
    intro post c
    simp only [List.cons_append]
    unfold processChunkGo
    split_ifs with h
    · rw [ih]
    · rw [ih]

/-- Counter analogue of `processChunkGo_skip`. -/
theorem linesProcessedGo_skip (l : List Char)
    (hskip : ¬ (0 < l.length ∧ l.length < 65535)) :
    ∀ (pre post : List (List Char)) (c : Nat),
      linesProcessedGo (pre ++ l :: post) c = linesProcessedGo (pre ++ post) c := by
  intro pre
  induction pre with
  | nil =>
    intro post c
    simp only [List.nil_append]
    conv_lhs => unfold linesProcessedGo
    rw [if_neg hskip]
  | cons p pre2 ih =>
    intro post c
    simp only [List.cons_append]
    unfold linesProcessedGo
    split_ifs with h
    · rw [ih]
    · rw [ih]

/-- Claim C10: a newline-terminated line of length zero or at least 65535 is
    skipped entirely by `process_chunk`: it contributes no records for any
    tokenizer and does not advance the processed-line counter, and therefore
    every line after it in the chunk is assigned an absolute number
    (`base + counter`) strictly smaller than its true position
    (`base + index`). -/
theorem c10_skipped_lines_shift_numbering (tok : Tok) (base c : Nat)
    (pre post : List (List Char)) (l : List Char)
    (hskip : l.length = 0 ∨ 65535 ≤ l.length) :
    processChunkGo tok base (pre ++ l :: post) c = processChunkGo tok base (pre ++ post) c
    ∧ linesProcessedGo (pre ++ l :: post) c = linesProcessedGo (pre ++ post) c
    ∧ ∀ j : Nat,
        linesProcessedGo (List.take (pre.length + 1 + j) (pre ++ l :: post)) 0
          < pre.length + 1 + j := by
  have hskip2 : ¬ (0 < l.length ∧ l.length < 65535) := by omega
  refine ⟨processChunkGo_skip tok base l hskip2 pre post c,
          linesProcessedGo_skip l hskip2 pre post c, ?_⟩
  intro j
  have htake : List.take (pre.length + 1 + j) (pre ++ l :: post)
      = pre ++ l :: List.take j post := by
    rw [List.take_append_eq_append_take, List.take_of_length_le (by omega)]
    have hnum : pre.length + 1 + j - pre.length = j + 1 := by omega
    rw [hnum, List.take_succ_cons]
  rw [htake, linesProcessedGo_eq, List.countP_append, List.countP_cons]
  have hl : (fun l : List Char => decide (0 < l.length ∧ l.length < 65535)) l = false := by
    simp [hskip2]
  have h1 : List.countP (fun l : List Char => decide (0 < l.length ∧ l.length < 65535)) pre
      ≤ pre.length := List.countP_le_length _
  have h2 : List.countP (fun l : List Char => decide (0 < l.length ∧ l.length < 65535))
      (List.take j post) ≤ j := by
    have := List.countP_le_length
      (l := List.take j post) (p := fun l : List Char => decide (0 < l.length ∧ l.length < 65535))
    have hlen : (List.take j post).length ≤ j := by
      rw [List.length_take]; omega
    omega
  simp only [hl, Bool.false_eq_true, if_false]
  omega

/-- Witness for `c10_skipped_lines_shift_numbering`: an empty line followed by
    a one-character line, under the spec-modelled tokenizer. -/
theorem c10_skipped_lines_witness :
    (([] : List Char).length = 0 ∨ 65535 ≤ ([] : List Char).length)
    ∧ (processChunkGo specTok 5 ([] ++ ([] : List Char) :: [['x']]) 0
        = processChunkGo specTok 5 ([] ++ [['x']]) 0
      ∧ linesProcessedGo ([] ++ ([] : List Char) :: [['x']]) 0
          = linesProcessedGo ([] ++ [['x']]) 0
      ∧ ∀ j : Nat,
          linesProcessedGo (List.take (List.length ([] : List (List Char)) + 1 + j)
              ([] ++ ([] : List Char) :: [['x']])) 0
            < List.length ([] : List (List Char)) + 1 + j) :=
  ⟨Or.inl rfl,
    c10_skipped_lines_shift_numbering specTok 5 0 [] [['x']] [] (Or.inl rfl)⟩

end Logpi
